import Mathlib

/-!
# Verification of the beer-documents catalog client core

Shallow embedding of the three core components of the document-catalog
client (Document Synchronization Engine, Document Ordering Engine,
Notification Pipeline) together with proofs of the specification claims.

The embedding follows the TypeScript source:
* `DocumentService` (src/services/DocumentService.ts) — state is the single
  localStorage slot under the fixed cache key plus the `usedCache` flag;
  `localStorage.setItem` failures (quota, private browsing) are modelled by
  an environment flag, a corrupt/unreadable stored value by a dedicated
  cache-value constructor.  The list of attempted `setItem` calls is
  recorded in `writeLog` so "performs a persistence write" is statable.
* `DocumentSortingService` — `Array.prototype.sort` with a comparator is
  stable (ES2019); it is modelled by a stable insertion sort.
* `NotificationsService` — the callback `Set` is modelled by its insertion
  order (a duplicate-free list); `JSON.parse` by an executable JSON parser
  returning `Except`.
-/

namespace BeerDocs

/-! ## Data model and Document Synchronization Engine (DocumentService) -/

/-- A document contributor, an `{ID, Name}` pair
(field shapes as used throughout the source and its tests). -/
structure Contributor where
  ID : String
  Name : String
deriving Repr, DecidableEq

/-- Modelled from the spec: the `Document` entity of src/models/Document.ts,
whose file is absent from the snapshot (only its callers and tests are
present).  Per spec §3 and the object literals in the tests: an opaque
string identifier, a display title, a free-form version string, ISO-8601
created/updated timestamps, contributors, attachment names, and the
provenance flag `isUserCreated` (optional in TS; absent = `false`). -/
structure Document where
  ID : String
  Title : String
  Version : String
  CreatedAt : String
  UpdatedAt : String
  Contributors : List Contributor
  Attachments : List String
  isUserCreated : Bool := false
deriving Repr, DecidableEq

/-- The value stored in the localStorage slot under `CACHE_KEY`:
either a readable JSON-serialized document array (serialization is
round-trip faithful for document arrays, so it is kept structured), or an
unreadable/corrupt string on which `JSON.parse` throws. -/
inductive CacheVal where
  | ser (docs : List Document)
  | corrupt
deriving Repr, DecidableEq

/-- State of a `DocumentService` instance together with its storage:
`store` is the localStorage slot under the cache key (`none` = absent),
`usedCache` the private offline flag (initially `false`), and `writeLog`
the sequence of document arrays passed to `localStorage.setItem`
(recorded even when the write itself fails). -/
structure SyncState where
  store : Option CacheVal
  usedCache : Bool
  writeLog : List (List Document)
deriving Repr, DecidableEq

/-- A freshly constructed service over an empty store. -/
def initState : SyncState := ⟨none, false, []⟩

/-- Environment of one storage operation: whether `localStorage.setItem`
throws (quota exceeded, storage disabled, …). -/
structure StoreEnv where
  persistFails : Bool

/-- `getFromCache`: reads the slot, parses it, and returns `null` when the
slot is absent; a parse failure is caught and also yields `null`. -/
def getFromCache (st : SyncState) : Option (List Document) :=
  match st.store with
  | none => none
  | some (.ser docs) => some docs
  | some .corrupt => none

/-- `saveToCache`: attempts `localStorage.setItem`; a failure is caught and
logged, leaving the slot unchanged.  The attempt is recorded either way. -/
def saveToCache (env : StoreEnv) (st : SyncState) (documents : List Document) :
    SyncState :=
  { st with
    writeLog := st.writeLog ++ [documents]
    store := if env.persistFails then st.store else some (.ser documents) }

/-- `getUserCreatedDocuments`: the cached entries flagged `isUserCreated`. -/
def getUserCreatedDocuments (st : SyncState) : List Document :=
  ((getFromCache st).getD []).filter (fun doc => doc.isUserCreated)

/-- `getDocuments`: the outcome of the remote fetch (network failure,
non-ok status and body-decode failure all surface as a thrown error and
are collapsed into `Except.error`) is passed in as `fetched`.  On success
the user-created cached documents are prepended to the remote list, the
merge is persisted best-effort and the offline flag cleared; on failure
the previously persisted list is substituted if readable, otherwise the
original error is re-thrown. -/
def getDocuments (env : StoreEnv) (st : SyncState)
    (fetched : Except String (List Document)) :
    Except String (List Document) × SyncState :=
  match fetched with
  | .ok apiFetchedDocuments =>
      let userCreatedDocuments := getUserCreatedDocuments st
      let mergedDocuments := userCreatedDocuments ++ apiFetchedDocuments
      let st1 := saveToCache env st mergedDocuments
      (.ok mergedDocuments, { st1 with usedCache := false })
  | .error e =>
      match getFromCache st with
      | some cached => (.ok cached, { st with usedCache := true })
      | none => (.error e, st)

/-- `isOffline`: returns the flag set by the last `getDocuments` call. -/
def isOffline (st : SyncState) : Bool :=
  st.usedCache

/-- `addToCache`: stamps `isUserCreated = true` on the passed document
(mutating it — the second component of the result is the caller's document
after the call), appends it to the current cached list (empty when absent
or corrupt) and persists.  Every fallible step is caught internally, so
the operation always returns normally. -/
def addToCache (env : StoreEnv) (st : SyncState) (document : Document) :
    SyncState × Document :=
  let document' := { document with isUserCreated := true }
  let cached := (getFromCache st).getD []
  (saveToCache env st (cached ++ [document']), document')

/-- `removeFromCache`: filters out every cached entry whose `ID` equals
`documentId` and persists the remainder; always returns normally. -/
def removeFromCache (env : StoreEnv) (st : SyncState) (documentId : String) :
    SyncState :=
  let cached := (getFromCache st).getD []
  let filtered := cached.filter (fun doc => doc.ID ≠ documentId)
  saveToCache env st filtered

/-! ## Version comparator (DocumentSortingService.compareVersions) -/

/-- Models JavaScript `parseInt(s, 10)`: skip leading whitespace, read an
optional sign, then the maximal run of decimal digits; the result is `NaN`
(here `none`) when that run is empty, otherwise the signed value of the
digit run (any trailing garbage is ignored). -/
def jsParseInt (s : String) : Option Int :=
  let cs := s.data.dropWhile Char.isWhitespace
  let signed : Int × List Char :=
    match cs with
    | '-' :: r => (-1, r)
    | '+' :: r => (1, r)
    | r => (1, r)
  let ds := signed.2.takeWhile Char.isDigit
  if ds.isEmpty then none
  else some (signed.1 * Int.ofNat (ds.foldl (fun n c => n * 10 + (c.toNat - 48)) 0))

/-- Models JavaScript `String.prototype.split(".")` on the character
list: `""` yields `[""]`, separators at the ends yield empty segments. -/
def splitDots : List Char → List (List Char)
  | [] => [[]]
  | c :: rest =>
    match splitDots rest with
    | seg :: segs => if c = '.' then [] :: seg :: segs else (c :: seg) :: segs
    | [] => [[]]

/-- `parseVersion`: split on `.` and map each segment through
`parseInt(·, 10) || 0`, so a segment parsing to `NaN` (or to `0`) yields
`0`. -/
def parseVersion (version : String) : List Int :=
  (splitDots version.data).map (fun num => (jsParseInt (String.mk num)).getD 0)

/-- The `for` loop of `compareVersions`, from index `i` upward: `partA`
and `partB` are `versionA[i] || 0` and `versionB[i] || 0` (positions past
a list's end read as `0`); the first differing position returns its signed
difference. -/
def compareFrom (versionA versionB : List Int) (i : Nat) : Int :=
  if i < max versionA.length versionB.length then
    if versionA.getD i 0 ≠ versionB.getD i 0 then
      versionA.getD i 0 - versionB.getD i 0
    else compareFrom versionA versionB (i + 1)
  else 0
termination_by max versionA.length versionB.length - i
decreasing_by omega

/-- `compareVersions`: compare the parsed segment lists position by
position. -/
def compareVersions (a b : String) : Int :=
  compareFrom (parseVersion a) (parseVersion b) 0

/-- Comparison of the all-zero padding against a list (`cmpParts [] y`). -/
def zerosCmp : List Int → Int
  | [] => 0
  | b :: bs => if (0 : Int) ≠ b then 0 - b else zerosCmp bs

/-- Comparison of a list against the all-zero padding (`cmpParts x []`). -/
def cmpZeros : List Int → Int
  | [] => 0
  | a :: as => if a ≠ (0 : Int) then a - 0 else cmpZeros as

/-- Structural twin of the comparison loop, used for the proofs: compare
two segment lists head-first, reading a missing head as `0`. -/
def cmpParts : List Int → List Int → Int
  | [], ys => zerosCmp ys
  | a :: as, [] => cmpZeros (a :: as)
  | a :: as, b :: bs => if a ≠ b then a - b else cmpParts as bs

/-! ## Document Ordering Engine (DocumentSortingService) -/

/-- Three-way lexicographic comparison of character lists by code
point. -/
def charListCmp : List Char → List Char → Int
  | [], [] => 0
  | [], _ :: _ => -1
  | _ :: _, [] => 1
  | a :: as, b :: bs =>
    if a.toNat < b.toNat then -1
    else if b.toNat < a.toNat then 1
    else charListCmp as bs

/-- Models `String.prototype.localeCompare(·, undefined, { sensitivity:
"base" })` as used on document titles: a case-insensitive three-way
comparison, embedded as code-point comparison of the lowercased
strings. -/
def localeCompareBase (a b : String) : Int :=
  charListCmp (a.data.map Char.toLower) (b.data.map Char.toLower)

/-- Digit run to number, `none` unless the run is nonempty and all
digits. -/
def parseNatDigits (cs : List Char) : Option Nat :=
  if cs.isEmpty ∨ ¬ cs.all Char.isDigit then none
  else some (cs.foldl (fun n c => n * 10 + (c.toNat - 48)) 0)

/-- Gregorian leap year. -/
def isLeap (y : Nat) : Bool :=
  (y % 4 = 0 && y % 100 != 0) || y % 400 = 0

/-- Days in a month (1-based). -/
def daysInMonth (y m : Nat) : Nat :=
  if m = 2 then (if isLeap y then 29 else 28)
  else if m = 4 ∨ m = 6 ∨ m = 9 ∨ m = 11 then 30
  else 31

/-- Days in the months strictly before month `m` of a year with leap
flag `leap`. -/
def cumDays (m : Nat) (leap : Bool) : Nat :=
  let base := [0, 31, 59, 90, 120, 151, 181, 212, 243, 273, 304, 334].getD (m - 1) 0
  if leap ∧ m > 2 then base + 1 else base

/-- Days from 0000-01-01 to year `y`, month `m`, day `d` (proleptic
Gregorian, all-numeric). -/
def daysFromYear0 (y m d : Nat) : Nat :=
  365 * y + (y + 3) / 4 - (y + 99) / 100 + (y + 399) / 400 +
    cumDays m (isLeap y) + (d - 1)

/-- Milliseconds contributed by an optional `.mmm` suffix (3 digits),
optionally followed by `Z`. -/
def parseMillisPart : List Char → Option Nat
  | [] => some 0
  | ['Z'] => some 0
  | '.' :: a :: b :: c :: rest =>
    if rest = [] ∨ rest = ['Z'] then
      match parseNatDigits [a, b, c] with
      | some ms => some ms
      | none => none
    else none
  | _ => none

/-- Milliseconds contributed by an optional `:SS[.mmm]` suffix. -/
def parseSecondsPart : List Char → Option Nat
  | [] => some 0
  | ['Z'] => some 0
  | ':' :: s1 :: s2 :: rest =>
    match parseNatDigits [s1, s2], parseMillisPart rest with
    | some ss, some ms => if ss ≤ 59 then some (ss * 1000 + ms) else none
    | _, _ => none
  | _ => none

/-- Milliseconds contributed by an optional `THH:MM[:SS[.mmm]][Z]`
time-of-day part. -/
def parseTimePart : List Char → Option Nat
  | [] => some 0
  | 'T' :: h1 :: h2 :: ':' :: m1 :: m2 :: rest =>
    match parseNatDigits [h1, h2], parseNatDigits [m1, m2],
        parseSecondsPart rest with
    | some hh, some mm, some sub =>
      if hh ≤ 23 ∧ mm ≤ 59 then
        some (((hh * 60 + mm) * 60) * 1000 + sub)
      else none
    | _, _, _ => none
  | _ => none

/-- Models the builtin `new Date(s).getTime()` on the ISO-8601 timestamp
strings of the data model (`YYYY-MM-DD` with optional
`THH:MM[:SS[.mmm]][Z]`, read as UTC): epoch milliseconds, or `none` for
the `NaN` of an invalid date.  Non-ISO inputs accepted by some JS engines
are outside the data model and read as invalid here. -/
def jsDateGetTime (s : String) : Option Int :=
  match s.data with
  | y1 :: y2 :: y3 :: y4 :: '-' :: m1 :: m2 :: '-' :: d1 :: d2 :: rest =>
    match parseNatDigits [y1, y2, y3, y4], parseNatDigits [m1, m2],
        parseNatDigits [d1, d2], parseTimePart rest with
    | some y, some m, some d, some ms =>
      if 1 ≤ m ∧ m ≤ 12 ∧ 1 ≤ d ∧ d ≤ daysInMonth y m then
        some (((daysFromYear0 y m d : Int) - (daysFromYear0 1970 1 1 : Int)) *
          86400000 + (ms : Int))
      else none
    | _, _, _, _ => none
  | _ => none

/-- Left-to-right stable insertion: the new element is placed after every
earlier element `b` with `le b a`, i.e. an element moves in front of an
earlier one only when the comparator orders it strictly earlier — the
stability guarantee of `Array.prototype.sort` (ES2019). -/
def insertAfterLe (le : α → α → Bool) (a : α) : List α → List α
  | [] => [a]
  | b :: l => if le b a then b :: insertAfterLe le a l else a :: b :: l

/-- Stable sort by the comparator-induced `le`, processing the input left
to right; for a consistent comparator this yields the unique stable
sorted permutation, which is the ES2019 contract of
`Array.prototype.sort` run on the spread copy `[...documents]`. -/
def stableSort (le : α → α → Bool) (l : List α) : List α :=
  l.foldl (fun acc a => insertAfterLe le a acc) []

/-- `sortByName`: ascending by
`a.Title.localeCompare(b.Title, undefined, { sensitivity: "base" })`. -/
def sortByName (documents : List Document) : List Document :=
  stableSort (fun a b => decide (localeCompareBase a.Title b.Title ≤ 0)) documents

/-- `sortByVersion`: ascending by `compareVersions` on `Version`. -/
def sortByVersion (documents : List Document) : List Document :=
  stableSort (fun a b => decide (compareVersions a.Version b.Version ≤ 0)) documents

/-- The `"created"` comparator
`new Date(b.CreatedAt).getTime() - new Date(a.CreatedAt).getTime()`
(descending); a `NaN` difference (either date invalid) is coerced to `+0`
by the ECMAScript SortCompare step. -/
def compareCreated (a b : Document) : Int :=
  match jsDateGetTime b.CreatedAt, jsDateGetTime a.CreatedAt with
  | some tb, some ta => tb - ta
  | _, _ => 0

/-- `sortByCreatedDate`: newest first. -/
def sortByCreatedDate (documents : List Document) : List Document :=
  stableSort (fun a b => decide (compareCreated a b ≤ 0)) documents

/-- `sortDocuments`: a falsy (empty) sort key returns the spread copy
`[...documents]`; otherwise the copy is sorted by the selected field, any
unrecognized key falling through to the unsorted copy. -/
def sortDocuments (documents : List Document) (sortBy : String) : List Document :=
  if sortBy = "" then documents
  else
    match sortBy with
    | "name" => sortByName documents
    | "version" => sortByVersion documents
    | "created" => sortByCreatedDate documents
    | _ => documents

/-- `getAvailableSortOptions`: the fixed ordered `{value, label}` list. -/
def getAvailableSortOptions : List (String × String) :=
  [("", "Select one..."), ("name", "Name"), ("version", "Version"),
    ("created", "Created Date")]

/-! ## Notification Pipeline (NotificationsService)

`JSON.parse` is modelled by an executable recursive-descent JSON parser;
the number grammar keeps the raw numeral text, since no claim depends on
numeric values.  Listener callbacks are identified by naturals; the
JavaScript `Set` of callbacks is modelled by its insertion-order list,
duplicate-free for every reachable state. -/

/-- A JSON value as produced by `JSON.parse`. -/
inductive Json where
  | null
  | bool (b : Bool)
  | num (raw : String)
  | str (s : String)
  | arr (elems : List Json)
  | obj (fields : List (String × Json))
deriving Repr

/-- Hex digit test (`Char.isHexDigit` is absent in this toolchain). -/
def isHexChar (c : Char) : Bool :=
  c.isDigit || (97 ≤ c.toNat && c.toNat ≤ 102) || (65 ≤ c.toNat && c.toNat ≤ 70)

/-- Value of a hex digit. -/
def hexVal (c : Char) : Nat :=
  (c.toNat % 32 + 9) % 25

/-- Skip JSON insignificant whitespace. -/
def skipWs : List Char → List Char
  | c :: cs =>
    if c = ' ' ∨ c = '\t' ∨ c = '\n' ∨ c = '\r' then skipWs cs else c :: cs
  | [] => []

/-- Parse the remainder of a JSON string literal (after the opening
quote): returns the decoded content and the input after the closing
quote; unescaped control characters and invalid escapes are rejected, as
in `JSON.parse`. -/
def parseStringRest : List Char → Option (List Char × List Char)
  | [] => none
  | '"' :: cs => some ([], cs)
  | '\\' :: 'u' :: h1 :: h2 :: h3 :: h4 :: cs =>
    if isHexChar h1 ∧ isHexChar h2 ∧ isHexChar h3 ∧ isHexChar h4 then
      match parseStringRest cs with
      | some (content, rest) =>
        some (Char.ofNat ((hexVal h1 * 16 + hexVal h2) * 256 +
          (hexVal h3 * 16 + hexVal h4)) :: content, rest)
      | none => none
    else none
  | '\\' :: e :: cs =>
    match
      (if e = '"' then some '"'
       else if e = '\\' then some '\\'
       else if e = '/' then some '/'
       else if e = 'b' then some (Char.ofNat 8)
       else if e = 'f' then some (Char.ofNat 12)
       else if e = 'n' then some '\n'
       else if e = 'r' then some '\r'
       else if e = 't' then some '\t'
       else none) with
    | some ec =>
      match parseStringRest cs with
      | some (content, rest) => some (ec :: content, rest)
      | none => none
    | none => none
  | c :: cs =>
    if c.toNat < 32 then none
    else
      match parseStringRest cs with
      | some (content, rest) => some (c :: content, rest)
      | none => none

/-- Parse a JSON number at the head of the input (JSON grammar:
`-?(0|[1-9][0-9]*)(\.[0-9]+)?([eE][+-]?[0-9]+)?`), returning its raw
text. -/
def parseNumberRest (cs : List Char) : Option (List Char × List Char) :=
  let signed : List Char × List Char :=
    match cs with
    | '-' :: r => (['-'], r)
    | r => ([], r)
  let intPart := signed.2.takeWhile Char.isDigit
  let afterInt := signed.2.dropWhile Char.isDigit
  if intPart.isEmpty then none
  else if intPart.length > 1 ∧ intPart.headD '0' = '0' then none
  else
    let fracced : Option (List Char × List Char) :=
      match afterInt with
      | '.' :: r =>
        let ds := r.takeWhile Char.isDigit
        if ds.isEmpty then none else some ('.' :: ds, r.dropWhile Char.isDigit)
      | r => some ([], r)
    match fracced with
    | none => none
    | some (fracRaw, afterFrac) =>
      match afterFrac with
      | 'e' :: r =>
        let sgn : List Char × List Char :=
          match r with
          | '+' :: r2 => (['+'], r2)
          | '-' :: r2 => (['-'], r2)
          | r2 => ([], r2)
        let ds := sgn.2.takeWhile Char.isDigit
        if ds.isEmpty then none
        else some (signed.1 ++ intPart ++ fracRaw ++ 'e' :: sgn.1 ++ ds,
          sgn.2.dropWhile Char.isDigit)
      | 'E' :: r =>
        let sgn : List Char × List Char :=
          match r with
          | '+' :: r2 => (['+'], r2)
          | '-' :: r2 => (['-'], r2)
          | r2 => ([], r2)
        let ds := sgn.2.takeWhile Char.isDigit
        if ds.isEmpty then none
        else some (signed.1 ++ intPart ++ fracRaw ++ 'E' :: sgn.1 ++ ds,
          sgn.2.dropWhile Char.isDigit)
      | r => some (signed.1 ++ intPart ++ fracRaw, r)

/-- Parser mode: a single value, the items of an array after the first
`[`, or the members of an object after the first `(open brace)`. -/
inductive PMode where
  | value
  | arrItems (acc : List Json)
  | objItems (acc : List (String × Json))

/-- Fuel-indexed recursive-descent parser for JSON values. -/
def parseJ : Nat → PMode → List Char → Option (Json × List Char)
  | 0, _, _ => none
  | fuel + 1, .value, cs =>
    match skipWs cs with
    | [] => none
    | c :: rest =>
      if c = 'n' then
        match rest with
        | 'u' :: 'l' :: 'l' :: r => some (.null, r)
        | _ => none
      else if c = 't' then
        match rest with
        | 'r' :: 'u' :: 'e' :: r => some (.bool true, r)
        | _ => none
      else if c = 'f' then
        match rest with
        | 'a' :: 'l' :: 's' :: 'e' :: r => some (.bool false, r)
        | _ => none
      else if c = '"' then
        match parseStringRest rest with
        | some (content, r) => some (.str (String.mk content), r)
        | none => none
      else if c = '[' then
        match skipWs rest with
        | ']' :: r => some (.arr [], r)
        | r => parseJ fuel (.arrItems []) r
      else if c.toNat = 123 then
        match skipWs rest with
        | c2 :: r => if c2.toNat = 125 then some (.obj [], r)
            else parseJ fuel (.objItems []) (c2 :: r)
        | [] => none
      else
        match parseNumberRest (c :: rest) with
        | some (raw, r) => some (.num (String.mk raw), r)
        | none => none
  | fuel + 1, .arrItems acc, cs =>
    match parseJ fuel .value cs with
    | some (v, r) =>
      match skipWs r with
      | ',' :: r2 => parseJ fuel (.arrItems (acc ++ [v])) r2
      | ']' :: r2 => some (.arr (acc ++ [v]), r2)
      | _ => none
    | none => none
  | fuel + 1, .objItems acc, cs =>
    match skipWs cs with
    | '"' :: r =>
      match parseStringRest r with
      | some (key, r2) =>
        match skipWs r2 with
        | ':' :: r3 =>
          match parseJ fuel .value r3 with
          | some (v, r4) =>
            match skipWs r4 with
            | ',' :: r5 => parseJ fuel (.objItems (acc ++ [(String.mk key, v)])) r5
            | c :: r5 =>
              if c.toNat = 125 then
                some (.obj (acc ++ [(String.mk key, v)]), r5)
              else none
            | [] => none
          | none => none
        | _ => none
      | none => none
    | _ => none

/-- Models `JSON.parse`: one JSON value, optionally surrounded by
whitespace; anything else throws a `SyntaxError`
(`Except.error`). -/
def jsonParse (s : String) : Except String Json :=
  match parseJ (2 * s.data.length + 4) .value s.data with
  | some (v, rest) =>
    if skipWs rest = [] then .ok v else .error "Unexpected token"
  | none => .error "Unexpected token"

/-- The `Notification` interface of the push channel: five string
fields. -/
structure Notification where
  Timestamp : String
  UserID : String
  UserName : String
  DocumentID : String
  DocumentTitle : String
deriving Repr, DecidableEq

/-- Look up an object field holding a string. -/
def lookupStr (fields : List (String × Json)) (k : String) : Option String :=
  match fields.lookup k with
  | some (.str s) => some s
  | _ => none

/-- The claim's reading of "parses as a JSON Notification event": a JSON
object carrying the five string fields of the `Notification` interface.
The source performs no such validation — the `JSON.parse` result is cast
unchecked — which is exactly what the counterexample to C7 exhibits. -/
def notificationOfJson (j : Json) : Option Notification :=
  match j with
  | .obj fields =>
    match lookupStr fields "Timestamp", lookupStr fields "UserID",
        lookupStr fields "UserName", lookupStr fields "DocumentID",
        lookupStr fields "DocumentTitle" with
    | some t, some uid, some un, some did, some dt =>
      some ⟨t, uid, un, did, dt⟩
    | _, _, _, _, _ => none
  | _ => none

/-- Connection state of the wrapped WebSocket. -/
inductive WsState where
  | connecting
  | opened
  | closed
deriving Repr, DecidableEq

/-- State of a `NotificationsService`: the optional socket and the
callback `Set`, modelled by its insertion-order list of listener
identities. -/
structure NotifState where
  ws : Option WsState
  callbacks : List Nat
deriving Repr, DecidableEq

/-- `subscribe`: `Set.add` keeps insertion order and ignores a duplicate;
the returned de-registration closure is `unsubscribe · c`. -/
def subscribe (st : NotifState) (c : Nat) : NotifState :=
  { st with
    callbacks := if c ∈ st.callbacks then st.callbacks else st.callbacks ++ [c] }

/-- The de-registration function returned by `subscribe`: `Set.delete`. -/
def unsubscribe (st : NotifState) (c : Nat) : NotifState :=
  { st with callbacks := st.callbacks.erase c }

/-- `broadcastNotification`: `Set.forEach` invokes every currently
subscribed callback once, in insertion order, with the parsed value. -/
def broadcastNotification (st : NotifState) (j : Json) : List (Nat × Json) :=
  st.callbacks.map (fun c => (c, j))

/-- Outcome of one `onmessage` invocation: the service state afterwards,
the performed listener invocations in order, and whether the handler's
`catch` logged an error. -/
structure MessageOutcome where
  state : NotifState
  delivered : List (Nat × Json)
  loggedError : Bool
deriving Repr

/-- The `onmessage` handler: `JSON.parse(event.data)` inside `try`; a
successfully parsed value is broadcast, a parse throw is caught and
logged with no delivery; the connection is untouched either way. -/
def onMessage (st : NotifState) (data : String) : MessageOutcome :=
  match jsonParse data with
  | .ok j => ⟨st, broadcastNotification st j, false⟩
  | .error _ => ⟨st, [], true⟩

/-- An externally observable operation on the service. -/
inductive NotifOp where
  | sub (c : Nat)
  | unsub (c : Nat)
  | message (data : String)
deriving Repr, DecidableEq

/-- One step of the service, returning the new state and the deliveries
performed by that step. -/
def notifStep (st : NotifState) : NotifOp → NotifState × List (Nat × Json)
  | .sub c => (subscribe st c, [])
  | .unsub c => (unsubscribe st c, [])
  | .message data => ((onMessage st data).state, (onMessage st data).delivered)

/-- Run a sequence of operations, accumulating all deliveries. -/
def notifRun (st : NotifState) : List NotifOp → NotifState × List (Nat × Json)
  | [] => (st, [])
  | op :: ops =>
    let s1 := notifStep st op
    let s2 := notifRun s1.1 ops
    (s2.1, s1.2 ++ s2.2)

/-! ### Claims C1, C2, C5, C6 -/

/-- **C1.** For every remote list `r` successfully fetched and every cached
list `c`, `getDocuments` returns exactly `u ++ r` where `u` is the
subsequence of `c` with `isUserCreated = true` in original cache order,
records a persistence write of that exact merged array (stored under the
cache key when the write succeeds, the slot untouched when it fails), and
clears the offline flag; in particular the returned value is the same
whether or not the persistence write fails. -/
theorem getDocuments_success_merge (env : StoreEnv) (c r : List Document)
    (flag : Bool) (wl : List (List Document)) :
    getDocuments env ⟨some (.ser c), flag, wl⟩ (.ok r) =
      (.ok (c.filter (fun doc => doc.isUserCreated) ++ r),
        { store :=
            if env.persistFails then some (.ser c)
            else some (.ser (c.filter (fun doc => doc.isUserCreated) ++ r))
          usedCache := false
          writeLog := wl ++ [c.filter (fun doc => doc.isUserCreated) ++ r] }) := by
  simp [getDocuments, getUserCreatedDocuments, getFromCache, saveToCache]

/-- **C2.** On a failing remote fetch: if a readable cached list exists,
`getDocuments` returns exactly it and the offline flag becomes `true`
(with no write performed); if none exists, the original error is re-thrown
and the whole state — in particular the offline flag — is unchanged.  On a
fresh engine that flag is `false`. -/
theorem getDocuments_failure_fallback (env : StoreEnv) (st : SyncState)
    (e : String) :
    (getDocuments env st (.error e) =
      match getFromCache st with
      | some cached => (.ok cached, { st with usedCache := true })
      | none => (.error e, st)) ∧
    isOffline initState = false := by
  refine ⟨?_, rfl⟩
  cases h : getFromCache st <;> simp [getDocuments, h]

/-- **C5.** `addToCache` stamps `isUserCreated = true` on the passed
document (the caller's mutated document is returned as the second
component), appends exactly that stamped document after all entries of the
current cached list (empty when absent or corrupt), and records a
persistence write of the result, which lands in the store exactly when
the write does not fail; being an equation over every environment —
including a failing store and a corrupt cache — it shows the operation
always returns normally. -/
theorem addToCache_appends_stamped (env : StoreEnv) (st : SyncState)
    (d : Document) :
    addToCache env st d =
      ({ st with
          store :=
            if env.persistFails then st.store
            else some (.ser ((getFromCache st).getD [] ++
              [{ d with isUserCreated := true }]))
          writeLog := st.writeLog ++
            [(getFromCache st).getD [] ++ [{ d with isUserCreated := true }]] },
        { d with isUserCreated := true }) := by
  simp [addToCache, saveToCache]

/-- **C6.** `removeFromCache` filters out every cached entry whose `ID`
equals `documentId` (keeping the others, in order: the result is a sublist
of the prior cache) and records a persistence write of the remainder even
when nothing matched, in which case the content is unchanged; the equation
holds in every environment, so the operation always returns normally. -/
theorem removeFromCache_filters (env : StoreEnv) (st : SyncState)
    (documentId : String) :
    (removeFromCache env st documentId =
      { st with
        store :=
          if env.persistFails then st.store
          else some (.ser (((getFromCache st).getD []).filter
            (fun doc => doc.ID ≠ documentId)))
        writeLog := st.writeLog ++
          [((getFromCache st).getD []).filter (fun doc => doc.ID ≠ documentId)] }) ∧
    (((getFromCache st).getD []).filter (fun doc => doc.ID ≠ documentId)).Sublist
      ((getFromCache st).getD []) ∧
    ((∀ doc ∈ (getFromCache st).getD [], doc.ID ≠ documentId) →
      ((getFromCache st).getD []).filter (fun doc => doc.ID ≠ documentId) =
        (getFromCache st).getD []) := by
  refine ⟨by simp [removeFromCache, saveToCache], List.filter_sublist _, ?_⟩
  intro h
  exact List.filter_eq_self.mpr (fun a ha => by simpa using h a ha)

/-- Witness for `removeFromCache_filters` at a concrete state in which the
removed identifier is absent. -/
theorem removeFromCache_filters_witness :
    (∀ doc ∈ (getFromCache ⟨some (.ser [⟨"a", "T", "1.0", "2024-01-01",
        "2024-01-01", [], [], false⟩]), false, []⟩).getD [],
      doc.ID ≠ "zzz") ∧
    ((getFromCache ⟨some (.ser [⟨"a", "T", "1.0", "2024-01-01",
        "2024-01-01", [], [], false⟩]), false, []⟩).getD []).filter
        (fun doc => doc.ID ≠ "zzz") =
      (getFromCache ⟨some (.ser [⟨"a", "T", "1.0", "2024-01-01",
        "2024-01-01", [], [], false⟩]), false, []⟩).getD [] := by
  refine ⟨by decide, ?_⟩
  exact (removeFromCache_filters ⟨false⟩ _ "zzz").2.2 (by decide)

/-! ### Version-comparator lemmas and claims C3, C10 -/

theorem cmpParts_nil_right (x : List Int) : cmpParts x [] = cmpZeros x := by
  cases x <;> rfl

theorem cmpParts_cons (x y : List Int) (h : x ≠ [] ∨ y ≠ []) :
    cmpParts x y =
      if x.headD 0 ≠ y.headD 0 then x.headD 0 - y.headD 0
      else cmpParts x.tail y.tail := by
  match x, y with
  | [], [] => simp at h
  | [], b :: bs => simp [cmpParts, zerosCmp]
  | a :: as, [] => simp [cmpParts, cmpZeros, cmpParts_nil_right]
  | a :: as, b :: bs => simp [cmpParts]

theorem getD_eq_headD_drop (l : List Int) (i : Nat) :
    l.getD i 0 = (l.drop i).headD 0 := by
  induction l generalizing i with
  | nil => simp [List.getD]
  | cons a l ih =>
    cases i with
    | zero => simp
    | succ n => simp [ih n]

theorem drop_succ_eq_tail_drop (l : List Int) (i : Nat) :
    l.drop (i + 1) = (l.drop i).tail := by
  induction l generalizing i with
  | nil => simp
  | cons a l ih =>
    cases i with
    | zero => simp
    | succ n => exact ih n

theorem compareFrom_eq_cmpParts (va vb : List Int) (i : Nat) :
    compareFrom va vb i = cmpParts (va.drop i) (vb.drop i) := by
  have H : ∀ n i, max va.length vb.length - i = n →
      compareFrom va vb i = cmpParts (va.drop i) (vb.drop i) := by
    intro n
    induction n with
    | zero =>
      intro i hi
      have h1 : ¬ i < max va.length vb.length := by omega
      have ha : va.drop i = [] := List.drop_eq_nil_of_le (by omega)
      have hb : vb.drop i = [] := List.drop_eq_nil_of_le (by omega)
      rw [compareFrom, if_neg h1, ha, hb]
      rfl
    | succ n ih =>
      intro i hi
      have h1 : i < max va.length vb.length := by omega
      have hne : va.drop i ≠ [] ∨ vb.drop i ≠ [] := by
        rcases lt_max_iff.mp h1 with h | h
        · exact Or.inl (by
            have : 0 < (va.drop i).length := by
              rw [List.length_drop]; omega
            exact List.ne_nil_of_length_pos this)
        · exact Or.inr (by
            have : 0 < (vb.drop i).length := by
              rw [List.length_drop]; omega
            exact List.ne_nil_of_length_pos this)
      rw [compareFrom, if_pos h1, cmpParts_cons _ _ hne,
        ← getD_eq_headD_drop va i, ← getD_eq_headD_drop vb i,
        ← drop_succ_eq_tail_drop va i, ← drop_succ_eq_tail_drop vb i,
        ih (i + 1) (by omega)]
  exact H _ i rfl

theorem cmpParts_self (x : List Int) : cmpParts x x = 0 := by
  induction x with
  | nil => rfl
  | cons a as ih => simp [cmpParts, ih]

theorem cmpZeros_eq_neg_zerosCmp (l : List Int) : cmpZeros l = -zerosCmp l := by
  induction l with
  | nil => rfl
  | cons b bs ih =>
    simp only [cmpZeros, zerosCmp]
    by_cases h : b = 0
    · rw [if_neg (by omega), if_neg (by omega)]
      exact ih
    · rw [if_pos (by omega), if_pos (by omega)]
      omega

theorem cmpParts_swap (x y : List Int) : cmpParts y x = -cmpParts x y := by
  induction x generalizing y with
  | nil =>
    show cmpParts y [] = -cmpParts [] y
    rw [cmpParts_nil_right]
    simp only [cmpParts]
    exact cmpZeros_eq_neg_zerosCmp y
  | cons a as iha =>
    cases y with
    | nil =>
      show cmpParts [] (a :: as) = -cmpParts (a :: as) []
      rw [cmpParts_nil_right, cmpZeros_eq_neg_zerosCmp]
      simp only [cmpParts, neg_neg]
    | cons b bs =>
      show cmpParts (b :: bs) (a :: as) = -cmpParts (a :: as) (b :: bs)
      simp only [cmpParts]
      by_cases h : a = b
      · rw [if_neg (by omega), if_neg (by omega)]
        exact iha bs
      · rw [if_pos (by omega), if_pos (by omega)]
        omega

/-- All-zero segment lists are interchangeable on the left of `cmpParts`. -/
theorem cmpParts_replicate_zero (n : Nat) :
    ∀ y, cmpParts (List.replicate n 0) y = cmpParts [] y := by
  induction n with
  | zero => intro y; rfl
  | succ n ih =>
    intro y
    rw [List.replicate_succ]
    cases y with
    | nil =>
      rw [cmpParts_nil_right]
      simp only [cmpZeros]
      rw [if_neg (by omega), ← cmpParts_nil_right, ih []]
    | cons b bs =>
      show cmpParts (0 :: List.replicate n 0) (b :: bs) = cmpParts [] (b :: bs)
      simp only [cmpParts, zerosCmp]
      by_cases h : b = 0
      · rw [if_neg (by omega), if_neg (by omega)]
        have := ih bs
        simpa only [cmpParts] using this
      · rw [if_pos (by omega), if_pos (by omega)]

theorem getD_tail (l : List Int) (k : Nat) :
    l.tail.getD k 0 = l.getD (k + 1) 0 := by
  cases l <;> simp [List.getD]

theorem headD_eq_getD_zero (l : List Int) : l.headD 0 = l.getD 0 0 := by
  cases l <;> simp [List.getD]

/-- First-difference characterization of `cmpParts`: if position `j` is
the first position (over the common padded range) where the padded lists
differ, the result is the signed difference there. -/
theorem cmpParts_first_diff :
    ∀ (j : Nat) (va vb : List Int), j < max va.length vb.length →
      (∀ i < j, va.getD i 0 = vb.getD i 0) →
      va.getD j 0 ≠ vb.getD j 0 →
      cmpParts va vb = va.getD j 0 - vb.getD j 0 := by
  intro j
  induction j with
  | zero =>
    intro va vb hlt _ hne
    have hnil : va ≠ [] ∨ vb ≠ [] := by
      rcases lt_max_iff.mp hlt with h | h
      · exact Or.inl (List.ne_nil_of_length_pos h)
      · exact Or.inr (List.ne_nil_of_length_pos h)
    rw [cmpParts_cons _ _ hnil, headD_eq_getD_zero, headD_eq_getD_zero,
      if_pos hne]
  | succ j ih =>
    intro va vb hlt hpre hne
    have h0 : va.getD 0 0 = vb.getD 0 0 := hpre 0 (by omega)
    have hnil : va ≠ [] ∨ vb ≠ [] := by
      rcases lt_max_iff.mp hlt with h | h
      · exact Or.inl (List.ne_nil_of_length_pos (by omega))
      · exact Or.inr (List.ne_nil_of_length_pos (by omega))
    rw [cmpParts_cons _ _ hnil, headD_eq_getD_zero, headD_eq_getD_zero,
      if_neg (by simpa using h0)]
    have htl : va.tail.getD j 0 ≠ vb.tail.getD j 0 := by
      rw [getD_tail, getD_tail]; exact hne
    have hlt' : j < max va.tail.length vb.tail.length := by
      rcases lt_max_iff.mp hlt with h | h
      · have : va ≠ [] := List.ne_nil_of_length_pos (by omega)
        have := List.length_tail va
        exact lt_max_iff.mpr (Or.inl (by omega))
      · have := List.length_tail vb
        exact lt_max_iff.mpr (Or.inr (by omega))
    have hpre' : ∀ i < j, va.tail.getD i 0 = vb.tail.getD i 0 := by
      intro i hi
      rw [getD_tail, getD_tail]
      exact hpre (i + 1) (by omega)
    rw [ih va.tail vb.tail hlt' hpre' htl, getD_tail, getD_tail]

/-- All-agree characterization of `cmpParts`: if the padded lists agree on
every compared position, the result is `0`. -/
theorem cmpParts_all_eq (va vb : List Int)
    (h : ∀ i < max va.length vb.length, va.getD i 0 = vb.getD i 0) :
    cmpParts va vb = 0 := by
  by_cases hnil : va = [] ∧ vb = []
  · obtain ⟨h1, h2⟩ := hnil
    subst h1; subst h2
    rfl
  · have hne : va ≠ [] ∨ vb ≠ [] := by tauto
    have hmax : 0 < max va.length vb.length := by
      rcases hne with h' | h'
      · exact lt_max_iff.mpr (Or.inl (List.length_pos.mpr h'))
      · exact lt_max_iff.mpr (Or.inr (List.length_pos.mpr h'))
    rw [cmpParts_cons _ _ hne, headD_eq_getD_zero, headD_eq_getD_zero,
      if_neg (by simpa using h 0 hmax)]
    exact cmpParts_all_eq va.tail vb.tail (fun i hi => by
      rw [getD_tail, getD_tail]
      apply h (i + 1)
      rcases lt_max_iff.mp hi with h' | h'
      · refine lt_max_iff.mpr (Or.inl ?_)
        have := List.length_tail va
        omega
      · refine lt_max_iff.mpr (Or.inr ?_)
        have := List.length_tail vb
        omega)
termination_by va.length + vb.length
decreasing_by
  rcases hne with h' | h'
  · have h1 := List.length_pos.mpr h'
    have h2 := List.length_tail va
    have h3 := List.length_tail vb
    omega
  · have h1 := List.length_pos.mpr h'
    have h2 := List.length_tail va
    have h3 := List.length_tail vb
    omega

theorem compareVersions_eq_cmpParts (a b : String) :
    compareVersions a b = cmpParts (parseVersion a) (parseVersion b) := by
  rw [compareVersions, compareFrom_eq_cmpParts]
  simp

/-- **C3.** The dotted-version comparator splits each version on `.`,
parses each segment with `parseInt(·, 10)` reading a failed parse
(non-numeric segment) as `0` and a position past a shorter version's end
as `0`, compares the `max(lengthA, lengthB)` positions left to right, and
returns the signed difference at the first differing position — `0` when
every compared position agrees.  In particular the four listed concrete
comparisons hold, and the empty string compares exactly like `"0.0.0"`
against every version string, on either side. -/
theorem compareVersions_spec :
    (∀ a b : String,
      (∀ i < max (parseVersion a).length (parseVersion b).length,
        (parseVersion a).getD i 0 = (parseVersion b).getD i 0) →
      compareVersions a b = 0) ∧
    (∀ (a b : String) (j : Nat),
      j < max (parseVersion a).length (parseVersion b).length →
      (∀ i < j, (parseVersion a).getD i 0 = (parseVersion b).getD i 0) →
      (parseVersion a).getD j 0 ≠ (parseVersion b).getD j 0 →
      compareVersions a b =
        (parseVersion a).getD j 0 - (parseVersion b).getD j 0) ∧
    compareVersions "1.0.0" "1.0.0" = 0 ∧
    compareVersions "1.0.2" "1.0.10" < 0 ∧
    compareVersions "2.0" "1.9.9" > 0 ∧
    compareVersions "invalid" "1.0.0" < 0 ∧
    (∀ x : String, compareVersions "" x = compareVersions "0.0.0" x ∧
      compareVersions x "" = compareVersions x "0.0.0") := by
  have h1 : parseVersion "" = List.replicate 1 0 := by decide
  have h3 : parseVersion "0.0.0" = List.replicate 3 0 := by decide
  refine ⟨?_, ?_, ?_, ?_, ?_, ?_, ?_⟩
  · intro a b h
    rw [compareVersions_eq_cmpParts]
    exact cmpParts_all_eq _ _ h
  · intro a b j hj hpre hne
    rw [compareVersions_eq_cmpParts]
    exact cmpParts_first_diff j _ _ hj hpre hne
  · rw [compareVersions_eq_cmpParts]; decide
  · rw [compareVersions_eq_cmpParts]; decide
  · rw [compareVersions_eq_cmpParts]; decide
  · rw [compareVersions_eq_cmpParts]; decide
  · intro x
    constructor
    · rw [compareVersions_eq_cmpParts, compareVersions_eq_cmpParts, h1, h3,
        cmpParts_replicate_zero, cmpParts_replicate_zero]
    · rw [compareVersions_eq_cmpParts, compareVersions_eq_cmpParts,
        cmpParts_swap (parseVersion "") (parseVersion x),
        cmpParts_swap (parseVersion "0.0.0") (parseVersion x), h1, h3,
        cmpParts_replicate_zero, cmpParts_replicate_zero]

/-- Witness for `compareVersions_spec`: its all-agree part applied to
`"7"` vs `"7.0"` and its first-difference part applied to `"1.2"` vs
`"1.3"` (first difference at position 1), hypotheses discharged by
computation. -/
theorem compareVersions_spec_witness :
    ((∀ i < max (parseVersion "7").length (parseVersion "7.0").length,
        (parseVersion "7").getD i 0 = (parseVersion "7.0").getD i 0) ∧
      compareVersions "7" "7.0" = 0) ∧
    ((1 < max (parseVersion "1.2").length (parseVersion "1.3").length ∧
        (∀ i < 1, (parseVersion "1.2").getD i 0 = (parseVersion "1.3").getD i 0) ∧
        (parseVersion "1.2").getD 1 0 ≠ (parseVersion "1.3").getD 1 0) ∧
      compareVersions "1.2" "1.3" =
        (parseVersion "1.2").getD 1 0 - (parseVersion "1.3").getD 1 0) :=
  ⟨⟨by decide, compareVersions_spec.1 "7" "7.0" (by decide)⟩,
    ⟨⟨by decide, by decide, by decide⟩,
      compareVersions_spec.2.1 "1.2" "1.3" 1 (by decide) (by decide) (by decide)⟩⟩

/-- **C10.** The version comparator is a coherent comparison function: it
is reflexively zero, and swapping its arguments negates the result (so the
two results have opposite signs or are both zero), making the `"version"`
sort order independent of the comparison direction. -/
theorem compareVersions_coherent :
    (∀ a : String, compareVersions a a = 0) ∧
    (∀ a b : String, compareVersions b a = -compareVersions a b) := by
  constructor
  · intro a
    rw [compareVersions_eq_cmpParts]
    exact cmpParts_self _
  · intro a b
    rw [compareVersions_eq_cmpParts, compareVersions_eq_cmpParts]
    exact cmpParts_swap _ _

/-! ### Stable-sort lemma kit -/

theorem insertAfterLe_perm {α : Type} (le : α → α → Bool) (a : α) (l : List α) :
    (insertAfterLe le a l).Perm (a :: l) := by
  induction l with
  | nil => exact List.Perm.refl _
  | cons b l ih =>
    by_cases h : le b a = true
    · rw [insertAfterLe, if_pos h]
      exact (ih.cons b).trans (List.Perm.swap a b l)
    · rw [insertAfterLe, if_neg h]

theorem mem_insertAfterLe {α : Type} {le : α → α → Bool} {a x : α}
    {l : List α} : x ∈ insertAfterLe le a l ↔ x = a ∨ x ∈ l :=
  (insertAfterLe_perm le a l).mem_iff.trans List.mem_cons

theorem foldl_insertAfterLe_perm {α : Type} (le : α → α → Bool)
    (l : List α) :
    ∀ acc, (l.foldl (fun acc a => insertAfterLe le a acc) acc).Perm (l ++ acc) := by
  induction l with
  | nil => intro acc; simp
  | cons x xs ih =>
    intro acc
    simp only [List.foldl_cons]
    refine (ih (insertAfterLe le x acc)).trans ?_
    refine (List.Perm.append_left xs (insertAfterLe_perm le x acc)).trans ?_
    exact List.perm_middle

theorem stableSort_perm {α : Type} (le : α → α → Bool) (l : List α) :
    (stableSort le l).Perm l := by
  have h := foldl_insertAfterLe_perm le l []
  simpa [stableSort] using h

theorem pairwise_insertAfterLe {α : Type} (le : α → α → Bool) (M : List α)
    (htot : ∀ a ∈ M, ∀ b ∈ M, le a b = true ∨ le b a = true)
    (htrans : ∀ a ∈ M, ∀ b ∈ M, ∀ c ∈ M,
      le a b = true → le b c = true → le a c = true)
    (a : α) (ha : a ∈ M) :
    ∀ (l : List α), (∀ x ∈ l, x ∈ M) →
      l.Pairwise (fun x y => le x y = true) →
      (insertAfterLe le a l).Pairwise (fun x y => le x y = true) := by
  intro l
  induction l with
  | nil =>
    intro _ _
    simp [insertAfterLe]
  | cons b l ih =>
    intro hl hp
    rcases List.pairwise_cons.mp hp with ⟨hb, hp'⟩
    by_cases h : le b a = true
    · rw [insertAfterLe, if_pos h]
      refine List.pairwise_cons.mpr
        ⟨?_, ih (fun x hx => hl x (List.mem_cons_of_mem b hx)) hp'⟩
      intro y hy
      rcases mem_insertAfterLe.mp hy with rfl | hy'
      · exact h
      · exact hb y hy'
    · rw [insertAfterLe, if_neg h]
      refine List.pairwise_cons.mpr ⟨?_, hp⟩
      intro y hy
      have hbM : b ∈ M := hl b (List.mem_cons_self b l)
      have hab : le a b = true := by
        rcases htot a ha b hbM with h' | h'
        · exact h'
        · exact absurd h' h
      rcases List.mem_cons.mp hy with rfl | hy'
      · exact hab
      · exact htrans a ha b hbM y (hl y (List.mem_cons_of_mem b hy')) hab (hb y hy')

theorem pairwise_foldl_insert {α : Type} (le : α → α → Bool) (M : List α)
    (htot : ∀ a ∈ M, ∀ b ∈ M, le a b = true ∨ le b a = true)
    (htrans : ∀ a ∈ M, ∀ b ∈ M, ∀ c ∈ M,
      le a b = true → le b c = true → le a c = true) :
    ∀ (l acc : List α), (∀ x ∈ l, x ∈ M) → (∀ x ∈ acc, x ∈ M) →
      acc.Pairwise (fun x y => le x y = true) →
      (l.foldl (fun acc a => insertAfterLe le a acc) acc).Pairwise
        (fun x y => le x y = true) := by
  intro l
  induction l with
  | nil =>
    intro acc _ _ hacc
    simpa using hacc
  | cons x xs ih =>
    intro acc hl hacc hp
    simp only [List.foldl_cons]
    refine ih (insertAfterLe le x acc) (fun z hz => hl z (List.mem_cons_of_mem x hz)) ?_ ?_
    · intro z hz
      rcases mem_insertAfterLe.mp hz with rfl | hz'
      · exact hl z (List.mem_cons_self z xs)
      · exact hacc z hz'
    · exact pairwise_insertAfterLe le M htot htrans x
        (hl x (List.mem_cons_self x xs)) acc hacc hp

theorem pairwise_stableSort {α : Type} (le : α → α → Bool) (M : List α)
    (htot : ∀ a ∈ M, ∀ b ∈ M, le a b = true ∨ le b a = true)
    (htrans : ∀ a ∈ M, ∀ b ∈ M, ∀ c ∈ M,
      le a b = true → le b c = true → le a c = true)
    (l : List α) (hl : ∀ x ∈ l, x ∈ M) :
    (stableSort le l).Pairwise (fun x y => le x y = true) := by
  have h := pairwise_foldl_insert le M htot htrans l [] hl
    (by intro x hx; simp at hx) (by simp)
  simpa [stableSort] using h

theorem insertAfterLe_all {α : Type} (le : α → α → Bool) (a : α) :
    ∀ (l : List α), (∀ b ∈ l, le b a = true) →
      insertAfterLe le a l = l ++ [a] := by
  intro l
  induction l with
  | nil => intro _; rfl
  | cons b l ih =>
    intro h
    rw [insertAfterLe, if_pos (h b (List.mem_cons_self b l)),
      ih (fun x hx => h x (List.mem_cons_of_mem b hx))]
    rfl

theorem foldl_insert_of_pairwise {α : Type} (le : α → α → Bool) :
    ∀ (l acc : List α),
      (∀ x ∈ l, ∀ b ∈ acc, le b x = true) →
      l.Pairwise (fun x y => le x y = true) →
      l.foldl (fun acc a => insertAfterLe le a acc) acc = acc ++ l := by
  intro l
  induction l with
  | nil =>
    intro acc _ _
    simp
  | cons x xs ih =>
    intro acc hcross hp
    rcases List.pairwise_cons.mp hp with ⟨hx, hp'⟩
    simp only [List.foldl_cons]
    rw [insertAfterLe_all le x acc (fun b hb => hcross x (List.mem_cons_self x xs) b hb),
      ih (acc ++ [x]) ?_ hp']
    · simp
    · intro y hy b hb
      rcases List.mem_append.mp hb with hb' | hb'
      · exact hcross y (List.mem_cons_of_mem x hy) b hb'
      · have hbx : b = x := by simpa using hb'
        subst hbx
        exact hx y hy

theorem stableSort_of_pairwise {α : Type} (le : α → α → Bool) (l : List α)
    (hp : l.Pairwise (fun x y => le x y = true)) : stableSort le l = l := by
  have h := foldl_insert_of_pairwise le l []
    (by intro x _ b hb; simp at hb) hp
  simpa [stableSort] using h

/-- Idempotence of the stable sort for a comparator that is total and
transitive on the elements of the list being sorted. -/
theorem stableSort_idem {α : Type} (le : α → α → Bool) (l : List α)
    (htot : ∀ a ∈ l, ∀ b ∈ l, le a b = true ∨ le b a = true)
    (htrans : ∀ a ∈ l, ∀ b ∈ l, ∀ c ∈ l,
      le a b = true → le b c = true → le a c = true) :
    stableSort le (stableSort le l) = stableSort le l := by
  apply stableSort_of_pairwise
  exact pairwise_stableSort le l htot htrans l (fun x hx => hx)

/-! ### Comparator coherence facts for the three sort fields -/

theorem charListCmp_self (x : List Char) : charListCmp x x = 0 := by
  induction x with
  | nil => rfl
  | cons a as ih => simp [charListCmp, ih]

theorem charListCmp_swap (x : List Char) :
    ∀ y, charListCmp y x = -charListCmp x y := by
  induction x with
  | nil =>
    intro y
    cases y <;> simp [charListCmp]
  | cons a as ih =>
    intro y
    cases y with
    | nil => simp [charListCmp]
    | cons b bs =>
      simp only [charListCmp]
      rcases Nat.lt_trichotomy a.toNat b.toNat with h | h | h
      · rw [if_neg (by omega), if_pos h, if_pos h]
        decide
      · rw [if_neg (by omega), if_neg (by omega), if_neg (by omega),
          if_neg (by omega)]
        exact ih bs
      · rw [if_pos h, if_neg (by omega), if_pos h]

theorem charListCmp_cons_le (a b : Char) (as bs : List Char) :
    charListCmp (a :: as) (b :: bs) ≤ 0 ↔
      a.toNat < b.toNat ∨ (a.toNat = b.toNat ∧ charListCmp as bs ≤ 0) := by
  simp only [charListCmp]
  by_cases h1 : a.toNat < b.toNat
  · rw [if_pos h1]
    constructor
    · intro _; exact Or.inl h1
    · intro _; omega
  · rw [if_neg h1]
    by_cases h2 : b.toNat < a.toNat
    · rw [if_pos h2]
      constructor
      · intro h; omega
      · rintro (h | ⟨h, _⟩) <;> omega
    · rw [if_neg h2]
      constructor
      · intro h; exact Or.inr ⟨by omega, h⟩
      · rintro (h | ⟨_, h⟩)
        · omega
        · exact h

theorem charListCmp_trans :
    ∀ (x y z : List Char), charListCmp x y ≤ 0 → charListCmp y z ≤ 0 →
      charListCmp x z ≤ 0 := by
  intro x
  induction x with
  | nil =>
    intro y z _ _
    cases z <;> simp [charListCmp]
  | cons a as ih =>
    intro y z hxy hyz
    cases y with
    | nil => simp [charListCmp] at hxy
    | cons b bs =>
      cases z with
      | nil => simp [charListCmp] at hyz
      | cons c cs =>
        rw [charListCmp_cons_le] at hxy hyz ⊢
        rcases hxy with h1 | ⟨h1, h1'⟩ <;> rcases hyz with h2 | ⟨h2, h2'⟩
        · exact Or.inl (by omega)
        · exact Or.inl (by omega)
        · exact Or.inl (by omega)
        · exact Or.inr ⟨by omega, ih bs cs h1' h2'⟩

theorem cmpParts_uncons (x y : List Int) :
    cmpParts x y =
      if x.headD 0 ≠ y.headD 0 then x.headD 0 - y.headD 0
      else cmpParts x.tail y.tail := by
  match x, y with
  | [], [] => simp
  | [], b :: bs => exact cmpParts_cons _ _ (Or.inr (by simp))
  | a :: as, [] => exact cmpParts_cons _ _ (Or.inl (by simp))
  | a :: as, b :: bs => exact cmpParts_cons _ _ (Or.inl (by simp))

theorem cmpParts_le_iff (x y : List Int) :
    cmpParts x y ≤ 0 ↔ x.headD 0 < y.headD 0 ∨
      (x.headD 0 = y.headD 0 ∧ cmpParts x.tail y.tail ≤ 0) := by
  rw [cmpParts_uncons]
  by_cases h : x.headD 0 = y.headD 0
  · rw [if_neg (by simpa using h)]
    constructor
    · intro h'; exact Or.inr ⟨h, h'⟩
    · rintro (h' | ⟨_, h'⟩)
      · omega
      · exact h'
  · rw [if_pos (by simpa using h)]
    constructor
    · intro h'; exact Or.inl (by omega)
    · rintro (h' | ⟨h', _⟩)
      · omega
      · exact absurd h' h

theorem cmpParts_trans (x y z : List Int)
    (hxy : cmpParts x y ≤ 0) (hyz : cmpParts y z ≤ 0) :
    cmpParts x z ≤ 0 := by
  by_cases hnil : x = [] ∧ y = [] ∧ z = []
  · rw [hnil.1, hnil.2.2]
    decide
  · rw [cmpParts_le_iff] at hxy hyz ⊢
    rcases hxy with h1 | ⟨h1, h1'⟩ <;> rcases hyz with h2 | ⟨h2, h2'⟩
    · exact Or.inl (by omega)
    · exact Or.inl (by omega)
    · exact Or.inl (by omega)
    · exact Or.inr ⟨by omega, cmpParts_trans x.tail y.tail z.tail h1' h2'⟩
termination_by x.length + y.length + z.length
decreasing_by
  have t1 := List.length_tail x
  have t2 := List.length_tail y
  have t3 := List.length_tail z
  have hlen : x.length ≠ 0 ∨ y.length ≠ 0 ∨ z.length ≠ 0 := by
    by_contra hc
    push_neg at hc
    exact hnil ⟨List.length_eq_zero.mp hc.1, List.length_eq_zero.mp hc.2.1,
      List.length_eq_zero.mp hc.2.2⟩
  omega

theorem compareVersions_le_total (a b : String) :
    compareVersions a b ≤ 0 ∨ compareVersions b a ≤ 0 := by
  have h := compareVersions_eq_cmpParts a b
  have h' := compareVersions_eq_cmpParts b a
  have hs := cmpParts_swap (parseVersion a) (parseVersion b)
  omega

theorem compareVersions_le_trans (a b c : String)
    (hab : compareVersions a b ≤ 0) (hbc : compareVersions b c ≤ 0) :
    compareVersions a c ≤ 0 := by
  rw [compareVersions_eq_cmpParts] at hab hbc ⊢
  exact cmpParts_trans _ _ _ hab hbc

theorem localeCompareBase_le_total (a b : String) :
    localeCompareBase a b ≤ 0 ∨ localeCompareBase b a ≤ 0 := by
  have hs := charListCmp_swap (a.data.map Char.toLower) (b.data.map Char.toLower)
  simp only [localeCompareBase]
  omega

theorem localeCompareBase_le_trans (a b c : String)
    (hab : localeCompareBase a b ≤ 0) (hbc : localeCompareBase b c ≤ 0) :
    localeCompareBase a c ≤ 0 :=
  charListCmp_trans _ _ _ hab hbc

/-! ### Facts about `sortDocuments` and claims C8, C9 -/

theorem sortDocuments_empty_field (l : List Document) : sortDocuments l "" = l := rfl

theorem sortDocuments_name (l : List Document) :
    sortDocuments l "name" = sortByName l := rfl

theorem sortDocuments_version (l : List Document) :
    sortDocuments l "version" = sortByVersion l := rfl

theorem sortDocuments_created (l : List Document) :
    sortDocuments l "created" = sortByCreatedDate l := rfl

theorem sortDocuments_perm (l : List Document) (f : String) :
    (sortDocuments l f).Perm l := by
  unfold sortDocuments
  split
  · exact List.Perm.refl l
  · split
    · exact stableSort_perm _ l
    · exact stableSort_perm _ l
    · exact stableSort_perm _ l
    · exact List.Perm.refl l

theorem sortDocuments_unrecognized (l : List Document) (f : String)
    (h1 : f ≠ "name") (h2 : f ≠ "version") (h3 : f ≠ "created") :
    sortDocuments l f = l := by
  unfold sortDocuments
  split
  · rfl
  · split
    · exact absurd rfl h1
    · exact absurd rfl h2
    · exact absurd rfl h3
    · rfl

/-- **C8.** `order(documents, field)` never mutates its input: it sorts a
spread copy, so in value semantics the result is a permutation of the
unchanged input for every field; and for the empty (falsy) or an
unrecognized field it returns a copy element-wise equal to the input in
the original order (reference non-identity of the copy is a heap notion
outside the value-level embedding; it follows from the source's explicit
`[...documents]` spread). -/
theorem sortDocuments_pure_copy :
    (∀ (l : List Document) (f : String), (sortDocuments l f).Perm l) ∧
    (∀ (l : List Document) (f : String),
      f = "" ∨ (f ≠ "name" ∧ f ≠ "version" ∧ f ≠ "created") →
      sortDocuments l f = l) := by
  refine ⟨sortDocuments_perm, ?_⟩
  intro l f hf
  rcases hf with rfl | ⟨h1, h2, h3⟩
  · rfl
  · exact sortDocuments_unrecognized l f h1 h2 h3

/-- Witness for `sortDocuments_pure_copy`: its copy part applied to the
unrecognized field `"xyz"` on a one-document list. -/
theorem sortDocuments_pure_copy_witness :
    (("xyz" : String) = "" ∨
      (("xyz" : String) ≠ "name" ∧ ("xyz" : String) ≠ "version" ∧
        ("xyz" : String) ≠ "created")) ∧
    sortDocuments
        [⟨"a", "T", "1.0", "2024-01-01", "2024-01-01", [], [], false⟩] "xyz" =
      [⟨"a", "T", "1.0", "2024-01-01", "2024-01-01", [], [], false⟩] :=
  ⟨Or.inr ⟨by decide, by decide, by decide⟩,
    sortDocuments_pure_copy.2 _ "xyz" (Or.inr ⟨by decide, by decide, by decide⟩)⟩

/-- **C9.** Sorting is idempotent per field: re-sorting an already sorted
list by the same field returns an identical sequence, for `"name"`,
`"version"`, `""` and any unrecognized field unconditionally, and for
`"created"` whenever the creation timestamps are parseable dates — which
the data model guarantees (ISO-8601 strings), and without which the
comparator's `NaN`-to-`+0` coercion makes the sort order itself
implementation-defined. -/
theorem sortDocuments_idempotent (l : List Document) (f : String)
    (hvalid : f = "created" →
      ∀ d ∈ l, (jsDateGetTime d.CreatedAt).isSome = true) :
    sortDocuments (sortDocuments l f) f = sortDocuments l f := by
  by_cases hn : f = "name"
  · subst hn
    rw [sortDocuments_name, sortDocuments_name]
    unfold sortByName
    apply stableSort_idem
    · intro a _ b _
      rcases localeCompareBase_le_total a.Title b.Title with h | h
      · exact Or.inl (by simpa using h)
      · exact Or.inr (by simpa using h)
    · intro a _ b _ c _ hab hbc
      simp only [decide_eq_true_eq] at hab hbc ⊢
      exact localeCompareBase_le_trans _ _ _ hab hbc
  · by_cases hver : f = "version"
    · subst hver
      rw [sortDocuments_version, sortDocuments_version]
      unfold sortByVersion
      apply stableSort_idem
      · intro a _ b _
        rcases compareVersions_le_total a.Version b.Version with h | h
        · exact Or.inl (by simpa using h)
        · exact Or.inr (by simpa using h)
      · intro a _ b _ c _ hab hbc
        simp only [decide_eq_true_eq] at hab hbc ⊢
        exact compareVersions_le_trans _ _ _ hab hbc
    · by_cases hcr : f = "created"
      · subst hcr
        have hv := hvalid rfl
        rw [sortDocuments_created, sortDocuments_created]
        unfold sortByCreatedDate
        apply stableSort_idem
        · intro a ha b hb
          obtain ⟨ta, hta⟩ := Option.isSome_iff_exists.mp (hv a ha)
          obtain ⟨tb, htb⟩ := Option.isSome_iff_exists.mp (hv b hb)
          simp only [compareCreated, hta, htb, decide_eq_true_eq]
          omega
        · intro a ha b hb c hc hab hbc
          obtain ⟨ta, hta⟩ := Option.isSome_iff_exists.mp (hv a ha)
          obtain ⟨tb, htb⟩ := Option.isSome_iff_exists.mp (hv b hb)
          obtain ⟨tc, htc⟩ := Option.isSome_iff_exists.mp (hv c hc)
          simp only [compareCreated, hta, htb, htc, decide_eq_true_eq]
            at hab hbc ⊢
          omega
      · by_cases h0 : f = ""
        · subst h0
          rfl
        · rw [sortDocuments_unrecognized l f hn hver hcr,
            sortDocuments_unrecognized l f hn hver hcr]

/-- Witness for `sortDocuments_idempotent` at field `"created"` over two
concrete documents with valid ISO dates. -/
theorem sortDocuments_idempotent_witness :
    (∀ d ∈ [(⟨"a", "Zeta", "2.0.0", "2024-01-02", "2024-01-02", [], [],
          false⟩ : Document),
        ⟨"u1", "Alpha", "1.0.0", "2024-01-01", "2024-01-01", [], [], true⟩],
      (jsDateGetTime d.CreatedAt).isSome = true) ∧
    sortDocuments (sortDocuments
        [(⟨"a", "Zeta", "2.0.0", "2024-01-02", "2024-01-02", [], [],
          false⟩ : Document),
          ⟨"u1", "Alpha", "1.0.0", "2024-01-01", "2024-01-01", [], [], true⟩]
        "created") "created" =
      sortDocuments
        [(⟨"a", "Zeta", "2.0.0", "2024-01-02", "2024-01-02", [], [],
          false⟩ : Document),
          ⟨"u1", "Alpha", "1.0.0", "2024-01-01", "2024-01-01", [], [], true⟩]
        "created" :=
  ⟨by decide, sortDocuments_idempotent _ "created" (fun _ => by decide)⟩

/-! ### Notification-pipeline lemmas and claims C4, C7 -/

theorem onMessage_state (st : NotifState) (data : String) :
    (onMessage st data).state = st := by
  unfold onMessage
  cases jsonParse data <;> rfl

theorem onMessage_delivered_mem (st : NotifState) (data : String) :
    ∀ p ∈ (onMessage st data).delivered, p.1 ∈ st.callbacks := by
  unfold onMessage
  cases jsonParse data with
  | ok j =>
    intro p hp
    simp only [broadcastNotification] at hp
    rcases List.mem_map.mp hp with ⟨c, hc, rfl⟩
    exact hc
  | error e =>
    intro p hp
    simp at hp

theorem foldl_subscribe_callbacks :
    ∀ (cs : List Nat) (st : NotifState), (∀ c ∈ cs, c ∉ st.callbacks) →
      cs.Nodup → (cs.foldl subscribe st).callbacks = st.callbacks ++ cs := by
  intro cs
  induction cs with
  | nil =>
    intro st _ _
    simp
  | cons c cs ih =>
    intro st hdisj hnd
    simp only [List.foldl_cons]
    have hc : c ∉ st.callbacks := hdisj c (List.mem_cons_self c cs)
    have hsub : subscribe st c = { st with callbacks := st.callbacks ++ [c] } := by
      simp [subscribe, hc]
    rw [hsub, ih]
    · simp
    · intro x hx
      simp only [List.mem_append, List.mem_singleton]
      rintro (hx' | rfl)
      · exact hdisj x (List.mem_cons_of_mem c hx) hx'
      · exact (List.nodup_cons.mp hnd).1 hx
    · exact (List.nodup_cons.mp hnd).2

theorem notifStep_preserves_nodup (st : NotifState) (op : NotifOp)
    (h : st.callbacks.Nodup) : (notifStep st op).1.callbacks.Nodup := by
  cases op with
  | sub c =>
    simp only [notifStep, subscribe]
    by_cases hc : c ∈ st.callbacks
    · simpa [hc] using h
    · simp only [hc, if_false]
      exact (List.perm_append_singleton c st.callbacks).nodup_iff.mpr
        (List.nodup_cons.mpr ⟨hc, h⟩)
  | unsub c =>
    simpa [notifStep, unsubscribe] using h.erase c
  | message data =>
    simpa [notifStep, onMessage_state] using h

theorem notifRun_no_delivery_to_missing :
    ∀ (ops : List NotifOp) (st : NotifState) (c : Nat),
      c ∉ st.callbacks → (∀ op ∈ ops, op ≠ NotifOp.sub c) →
      ∀ p ∈ (notifRun st ops).2, p.1 ≠ c := by
  intro ops
  induction ops with
  | nil =>
    intro st c _ _ p hp
    simp [notifRun] at hp
  | cons op ops ih =>
    intro st c hc hops p hp
    have hstep : c ∉ (notifStep st op).1.callbacks ∧
        ∀ q ∈ (notifStep st op).2, q.1 ≠ c := by
      cases op with
      | sub d =>
        have hne : d ≠ c := fun h =>
          (hops _ (List.mem_cons_self _ _)) (by rw [h])
        refine ⟨?_, by simp [notifStep]⟩
        simp only [notifStep, subscribe]
        by_cases hd : d ∈ st.callbacks
        · simpa [hd] using hc
        · simp only [hd, if_false, List.mem_append, List.mem_singleton]
          rintro (h' | rfl)
          · exact hc h'
          · exact hne rfl
      | unsub d =>
        refine ⟨?_, by simp [notifStep]⟩
        simp only [notifStep, unsubscribe]
        intro hmem
        exact hc (List.mem_of_mem_erase hmem)
      | message data =>
        refine ⟨by simpa [notifStep, onMessage_state] using hc, ?_⟩
        intro q hq
        simp only [notifStep] at hq
        intro hqc
        exact hc (hqc ▸ onMessage_delivered_mem st data q hq)
    simp only [notifRun, List.mem_append] at hp
    rcases hp with hp | hp
    · exact hstep.2 p hp
    · exact ih (notifStep st op).1 c hstep.1
        (fun o ho => hops o (List.mem_cons_of_mem op ho)) p hp

/-- **C4.** With `N` distinct listeners subscribed in order on one
connected channel, the callback set holds exactly those listeners in
subscription order, and each broadcast of a successfully parsed event
invokes every currently subscribed listener exactly once, in subscription
order; after a listener's de-registration function runs it is invoked
zero further times over any number of later operations that do not
re-subscribe it; and calling the de-registration function again after the
first call is a no-op (on the duplicate-free states reachable through the
`Set`). -/
theorem notifications_fanout :
    (∀ (cs : List Nat) (ws : Option WsState), cs.Nodup →
      (cs.foldl subscribe ⟨ws, []⟩).callbacks = cs ∧
      (∀ j : Json, broadcastNotification (cs.foldl subscribe ⟨ws, []⟩) j =
        cs.map (fun c => (c, j))) ∧
      (∀ (j : Json), ∀ c ∈ cs,
        ((broadcastNotification (cs.foldl subscribe ⟨ws, []⟩) j).map
          Prod.fst).count c = 1)) ∧
    (∀ (st : NotifState) (c : Nat) (ops : List NotifOp),
      st.callbacks.Nodup → (∀ op ∈ ops, op ≠ NotifOp.sub c) →
      ∀ p ∈ (notifRun (unsubscribe st c) ops).2, p.1 ≠ c) ∧
    (∀ (st : NotifState) (c : Nat), st.callbacks.Nodup →
      unsubscribe (unsubscribe st c) c = unsubscribe st c) := by
  refine ⟨?_, ?_, ?_⟩
  · intro cs ws hnd
    have hcb : (cs.foldl subscribe ⟨ws, []⟩).callbacks = cs := by
      simpa using foldl_subscribe_callbacks cs ⟨ws, []⟩ (by simp) hnd
    refine ⟨hcb, ?_, ?_⟩
    · intro j
      simp [broadcastNotification, hcb]
    · intro j c hc
      have : (broadcastNotification (cs.foldl subscribe ⟨ws, []⟩) j).map
          Prod.fst = cs := by
        simp only [broadcastNotification, hcb, List.map_map]
        exact List.map_id cs
      rw [this]
      exact List.count_eq_one_of_mem hnd hc
  · intro st c ops hnd hops
    exact notifRun_no_delivery_to_missing ops (unsubscribe st c) c
      hnd.not_mem_erase hops
  · intro st c hnd
    simp only [unsubscribe]
    exact congrArg (fun l => NotifState.mk st.ws l)
      (List.erase_of_not_mem hnd.not_mem_erase)

/-- Witness for `notifications_fanout`: two distinct listeners subscribed
on an open channel; listener 1 unsubscribes and then a broadcast of a
well-formed frame reaches no occurrence of it; double de-registration is
a no-op. -/
theorem notifications_fanout_witness :
    (([1, 2] : List Nat).Nodup ∧
      (([1, 2] : List Nat).foldl subscribe ⟨some .opened, []⟩).callbacks =
        [1, 2]) ∧
    ((∀ op ∈ [NotifOp.message "\x7b\x7d"], op ≠ NotifOp.sub 1) ∧
      ∀ p ∈ (notifRun (unsubscribe ⟨some .opened, [1, 2]⟩ 1)
        [NotifOp.message "\x7b\x7d"]).2, p.1 ≠ 1) ∧
    unsubscribe (unsubscribe ⟨some .opened, [1, 2]⟩ 1) 1 =
      unsubscribe ⟨some .opened, [1, 2]⟩ 1 :=
  ⟨⟨by decide, ((notifications_fanout.1 [1, 2] (some .opened) (by decide)).1)⟩,
    ⟨by decide, notifications_fanout.2.1 ⟨some .opened, [1, 2]⟩ 1
      [NotifOp.message "\x7b\x7d"] (by decide) (by decide)⟩,
    notifications_fanout.2.2 ⟨some .opened, [1, 2]⟩ 1 (by decide)⟩

/-- Counterexample to C7 as stated: the inbound frame `"\x7b\x7d"` (an
empty JSON object) is not a JSON Notification event — it lacks every
`Notification` field — yet with one subscriber the handler delivers it to
that subscriber rather than to zero subscribers: `JSON.parse`'s result is
broadcast without validation. -/
theorem malformed_frame_counterexample :
    jsonParse "\x7b\x7d" = .ok (.obj []) ∧
    notificationOfJson (.obj []) = none ∧
    (onMessage ⟨some .opened, [0]⟩ "\x7b\x7d").delivered = [(0, .obj [])] :=
  ⟨rfl, rfl, rfl⟩

/-- **C7 (amended).** While the channel is open, every inbound frame on
which `JSON.parse` throws is caught and logged, delivered to zero
subscribers, with no exception escaping the inbound-frame handler and the
whole service state — in particular the open connection — unchanged.
(A frame that parses as JSON but is not Notification-shaped is instead
broadcast unvalidated, as the counterexample above exhibits.) -/
theorem onMessage_parse_failure (st : NotifState) (data e : String)
    (h : jsonParse data = .error e) :
    (onMessage st data).state = st ∧ (onMessage st data).delivered = [] ∧
    (onMessage st data).loggedError = true := by
  unfold onMessage
  rw [h]
  exact ⟨rfl, rfl, rfl⟩

/-- Witness for `onMessage_parse_failure`: the frame `"nope"` is invalid
JSON; with two subscribers on an open channel it is dropped, logged, and
the state is unchanged. -/
theorem onMessage_parse_failure_witness :
    jsonParse "nope" = .error "Unexpected token" ∧
    ((onMessage ⟨some .opened, [0, 1]⟩ "nope").state = ⟨some .opened, [0, 1]⟩ ∧
      (onMessage ⟨some .opened, [0, 1]⟩ "nope").delivered = [] ∧
      (onMessage ⟨some .opened, [0, 1]⟩ "nope").loggedError = true) :=
  ⟨rfl, onMessage_parse_failure ⟨some .opened, [0, 1]⟩ "nope" "Unexpected token" rfl⟩

end BeerDocs
